import Mathlib

/-!
Verification of the DocShot native kernel `directional_gradient_accumulate`
(src/app/src/main/cpp/directional_gradient.cpp) against its specification.

The kernel is embedded shallowly:
* Gradient images are total maps `Int → Nat` from a linear pixel index to a
  byte value (out-of-range accesses are undefined behaviour in the source and
  are simply unconstrained here; the caller precondition keeps every access
  used by the kernel in bounds).
* Offset tables are flat maps `Nat → Int`, indexed by `a * kernel_length + k`
  exactly as the C code indexes `h_offsets + a * kernel_length` then `[k]`.
* The `int32_t` accumulators hold sums of zero-extended bytes; under the
  spec's no-overflow precondition those values are the corresponding natural
  numbers, so the accumulation stage is modelled over `Nat`.
* The normalisation stage is modelled over `Int`, mirroring the
  `int64_t` widening, the Euclidean/truncating division (the operands are
  non-negative, where the two agree), and both clamp branches.
* `threshold_percentile` is a C `float`; it is modelled as a rational, with
  the cast `static_cast<int>(total_pixels * threshold_percentile)` modelled
  as truncation toward zero of the exact product.
* `calloc` success is an explicit boolean input of the top-level wrapper
  `dgRun`; the failure branch zero-fills the output as the source does.
-/

namespace DocShot

/-- Scalar parameters and the two flat offset tables of one invocation of
`directional_gradient_accumulate`. -/
structure DGParams where
  rows : Nat
  cols : Nat
  num_angles : Nat
  kernel_length : Nat
  margin_y : Nat
  margin_x : Nat
  h_offsets : Nat → Int
  v_offsets : Nat → Int

/-- `total_pixels = rows * cols` (line 18 of the source). -/
def totalPixels (P : DGParams) : Nat := P.rows * P.cols

/-- The set of linear indices visited by the accumulation loops: the loops run
`y` over `[margin_y, rows - margin_y)` and `x` over `[margin_x, cols - margin_x)`
and visit `base_idx = y * cols + x`; an index `i` is of that form iff its
decoded coordinates `i / cols` and `i % cols` satisfy the bounds. -/
def isInterior (P : DGParams) (i : Nat) : Prop :=
  P.margin_y ≤ i / P.cols ∧ i / P.cols < P.rows - P.margin_y ∧
    P.margin_x ≤ i % P.cols ∧ i % P.cols < P.cols - P.margin_x

instance (P : DGParams) (i : Nat) : Decidable (isInterior P i) := by
  unfold isInterior
  infer_instance

/-- The inner tap loop for the first channel: `sum_h = Σ_k gy[base_idx + h_off[k]]`
(lines 44-47), with `h_off = h_offsets + a * kernel_length`.  The byte is
zero-extended before the addition, so the sum is a natural number. -/
def tapSumH (P : DGParams) (gy : Int → Nat) (a : Nat) (base : Nat) : Nat :=
  (Finset.range P.kernel_length).sum fun k =>
    gy ((base : Int) + P.h_offsets (a * P.kernel_length + k))

/-- The inner tap loop for the second channel: `sum_v = Σ_k gx[base_idx + v_off[k]]`
(lines 44-47). -/
def tapSumV (P : DGParams) (gx : Int → Nat) (a : Nat) (base : Nat) : Nat :=
  (Finset.range P.kernel_length).sum fun k =>
    gx ((base : Int) + P.v_offsets (a * P.kernel_length + k))

/-- The per-pixel first-channel accumulator after the first `n` angles: it
starts at the `calloc` value 0 and the update
`if (sum_h > h_response[base_idx]) h_response[base_idx] = sum_h` (line 49)
is a `max`. -/
def accumH (P : DGParams) (gy : Int → Nat) (base : Nat) : Nat → Nat
  | 0 => 0
  | a + 1 => max (accumH P gy base a) (tapSumH P gy a base)

/-- The per-pixel second-channel accumulator after the first `n` angles
(line 50). -/
def accumV (P : DGParams) (gx : Int → Nat) (base : Nat) : Nat → Nat
  | 0 => 0
  | a + 1 => max (accumV P gx base a) (tapSumV P gx a base)

/-- `h_response` after the whole accumulation stage (lines 33-53): interior
pixels hold the accumulated value over all `num_angles` angles, every other
pixel keeps its `calloc` value 0. -/
def h_response (P : DGParams) (gy : Int → Nat) (i : Nat) : Nat :=
  if isInterior P i then accumH P gy i P.num_angles else 0

/-- `v_response` after the whole accumulation stage (lines 33-53). -/
def v_response (P : DGParams) (gx : Int → Nat) (i : Nat) : Nat :=
  if isInterior P i then accumV P gx i P.num_angles else 0

/-- `combined = h_response[i] > v_response[i] ? h_response[i] : v_response[i]`
(line 58); the source stores it back into `h_response` in place. -/
def combinedR (P : DGParams) (gy gx : Int → Nat) (i : Nat) : Nat :=
  max (h_response P gy i) (v_response P gx i)

/-- The running value of `global_max` after the first `n` iterations of the
combining loop (lines 56-61): it starts at 1 and the update
`if (combined > global_max) global_max = combined` is a `max`. -/
def gmaxAux (P : DGParams) (gy gx : Int → Nat) : Nat → Nat
  | 0 => 1
  | i + 1 => max (gmaxAux P gy gx i) (combinedR P gy gx i)

/-- `global_max` after the combining loop over all `total_pixels` pixels. -/
def global_max (P : DGParams) (gy gx : Int → Nat) : Nat :=
  gmaxAux P gy gx (totalPixels P)

/-- `static_cast<int>(static_cast<int64_t>(h_response[i]) * 255 / global_max)`
(lines 68-70).  Both operands are non-negative, so the C truncating division
agrees with the Euclidean division used here. -/
def normalizedRaw (P : DGParams) (gy gx : Int → Nat) (i : Nat) : Int :=
  (combinedR P gy gx i : Int) * 255 / (global_max P gy gx : Int)

/-- The two clamp branches `if (normalized < 0) normalized = 0;`
`if (normalized > 255) normalized = 255;` (lines 71-72), in source order. -/
def normalizedClamped (P : DGParams) (gy gx : Int → Nat) (i : Nat) : Int :=
  let n0 := normalizedRaw P gy gx i
  let n1 := if n0 < 0 then 0 else n0
  if 255 < n1 then 255 else n1

/-- The byte written to `result_data[i]` by the normalisation pass (line 73). -/
def normByte (P : DGParams) (gy gx : Int → Nat) (i : Nat) : Nat :=
  (normalizedClamped P gy gx i).toNat

/-- `histogram[v]` after the normalisation pass (line 74): the number of
pixels whose normalised byte equals `v`. -/
def histogram (P : DGParams) (gy gx : Int → Nat) (v : Nat) : Nat :=
  ((Finset.range (totalPixels P)).filter fun i => normByte P gy gx i = v).card

/-- The running sum `cum_sum` after the first `n` histogram bins (line 85). -/
def cumSum (hist : Nat → Nat) (n : Nat) : Nat :=
  (Finset.range n).sum hist

/-- Truncation toward zero, the semantics of `static_cast<int>` on a
floating-point value. -/
def ratTrunc (q : ℚ) : Int :=
  if q < 0 then -Int.floor (-q) else Int.floor q

/-- `target = static_cast<int>(total_pixels * threshold_percentile)` (line 81),
with the `float` product modelled exactly over the rationals. -/
def target (P : DGParams) (p : ℚ) : Int :=
  ratTrunc ((totalPixels P : ℚ) * p)

/-- The threshold-selection loop (lines 82-90): `rem` bins remain, the next
bin is `i`, and `cum` is the running sum so far; the loop returns the first
bin whose running sum reaches `tgt`, and the initial value 255 of
`threshold_val` if no bin does. -/
def thrLoop (hist : Nat → Nat) (tgt : Int) : Nat → Nat → Nat → Nat
  | 0, _, _ => 255
  | rem + 1, i, cum =>
    if tgt ≤ ((cum + hist i : Nat) : Int) then i
    else thrLoop hist tgt rem (i + 1) (cum + hist i)

/-- `threshold_val` after the full walk over bins `0..255`. -/
def threshold_val (hist : Nat → Nat) (tgt : Int) : Nat :=
  thrLoop hist tgt 256 0 0

/-- The final in-place binarisation
`result_data[i] = (result_data[i] > threshold_val) ? 255 : 0` (lines 93-95). -/
def output (P : DGParams) (gy gx : Int → Nat) (p : ℚ) (i : Nat) : Nat :=
  if threshold_val (histogram P gy gx) (target P p) <
      normByte P gy gx i then 255 else 0

/-- The whole kernel, with the success of the two `calloc` calls (lines 21-29)
as explicit boolean inputs: when either allocation fails the kernel frees
whatever was allocated, `memset`s the entire output to 0 and returns. -/
def dgRun (hOk vOk : Bool) (P : DGParams) (gy gx : Int → Nat) (p : ℚ)
    (i : Nat) : Nat :=
  if hOk && vOk then output P gy gx p i else 0

/-- Scenario B parameters: a 3×3 image, margin 1 on both axes, one angle,
one tap, offset table `[0]` for both channels. -/
def P1 : DGParams :=
  ⟨3, 3, 1, 1, 1, 1, fun _ => 0, fun _ => 0⟩

/-- Scenario B first gradient channel: 100 at the centre pixel (linear
index 4), 0 elsewhere. -/
def gy1 : Int → Nat := fun i => if i = 4 then 100 else 0

/-- Scenario B second gradient channel: 50 at the centre pixel, 0 elsewhere. -/
def gx1 : Int → Nat := fun i => if i = 4 then 50 else 0

/-- The first-channel accumulator equals the supremum of the per-angle tap
sums over the angles already processed (with the `calloc` value 0 as the
supremum of no angles). -/
theorem accumH_eq_sup (P : DGParams) (gy : Int → Nat) (base : Nat) :
    ∀ n, accumH P gy base n = (Finset.range n).sup fun a => tapSumH P gy a base
  | 0 => by simp [accumH]
  | n + 1 => by
    rw [accumH, accumH_eq_sup P gy base n, Finset.range_succ, Finset.sup_insert,
      sup_eq_max]
    exact max_comm _ _

/-- The second-channel accumulator equals the supremum of the per-angle tap
sums over the angles already processed. -/
theorem accumV_eq_sup (P : DGParams) (gx : Int → Nat) (base : Nat) :
    ∀ n, accumV P gx base n = (Finset.range n).sup fun a => tapSumV P gx a base
  | 0 => by simp [accumV]
  | n + 1 => by
    rw [accumV, accumV_eq_sup P gx base n, Finset.range_succ, Finset.sup_insert,
      sup_eq_max]
    exact max_comm _ _

/-- The first-channel accumulator as a left fold over the angle list in
program order. -/
theorem accumH_eq_foldl (P : DGParams) (gy : Int → Nat) (base : Nat) :
    ∀ n, accumH P gy base n =
      (List.range n).foldl (fun acc a => max acc (tapSumH P gy a base)) 0
  | 0 => rfl
  | n + 1 => by
    rw [accumH, accumH_eq_foldl P gy base n, List.range_succ, List.foldl_append]
    rfl

/-- The second-channel accumulator as a left fold over the angle list in
program order. -/
theorem accumV_eq_foldl (P : DGParams) (gx : Int → Nat) (base : Nat) :
    ∀ n, accumV P gx base n =
      (List.range n).foldl (fun acc a => max acc (tapSumV P gx a base)) 0
  | 0 => rfl
  | n + 1 => by
    rw [accumV, accumV_eq_foldl P gx base n, List.range_succ, List.foldl_append]
    rfl

/-- Folding the running-max update over any permutation of the angle list
gives the same value: the update is right-commutative. -/
theorem foldl_max_perm (g : Nat → Nat) (L M : List Nat) (h : L.Perm M) :
    L.foldl (fun acc a => max acc (g a)) 0 =
      M.foldl (fun acc a => max acc (g a)) 0 := by
  haveI : RightCommutative fun acc a => max acc (g a) :=
    ⟨fun b a1 a2 => sup_right_comm b (g a1) (g a2)⟩
  exact h.foldl_eq 0

/-- `global_max` never drops below its initial value 1, at any point of the
combining loop. -/
theorem one_le_gmaxAux (P : DGParams) (gy gx : Int → Nat) :
    ∀ n, 1 ≤ gmaxAux P gy gx n
  | 0 => le_refl 1
  | n + 1 => le_trans (one_le_gmaxAux P gy gx n) (le_max_left _ _)

/-- Every combined value already scanned is bounded by the running
`global_max`. -/
theorem combinedR_le_gmaxAux (P : DGParams) (gy gx : Int → Nat) :
    ∀ n i, i < n → combinedR P gy gx i ≤ gmaxAux P gy gx n
  | 0, _, h => absurd h (Nat.not_lt_zero _)
  | n + 1, i, h => by
    rcases Nat.lt_succ_iff_lt_or_eq.mp h with h' | h'
    · exact le_trans (combinedR_le_gmaxAux P gy gx n i h') (le_max_left _ _)
    · rw [h', gmaxAux]
      exact le_max_right _ _

/-- The normalisation quotient as a natural-number division: both operands
are non-negative, so the `Int` division is the `Nat` division. -/
theorem normalizedRaw_eq_natCast (P : DGParams) (gy gx : Int → Nat) (i : Nat) :
    normalizedRaw P gy gx i =
      ((combinedR P gy gx i * 255 / global_max P gy gx : Nat) : Int) := by
  rw [normalizedRaw, Int.ofNat_ediv]
  push_cast
  ring_nf

/-- After the combining pass, every pixel's normalised quotient lies in
`[0, 255]`. -/
theorem normalizedRaw_bounds (P : DGParams) (gy gx : Int → Nat) (i : Nat)
    (h : i < totalPixels P) :
    0 ≤ normalizedRaw P gy gx i ∧ normalizedRaw P gy gx i ≤ 255 := by
  rw [normalizedRaw_eq_natCast]
  have hcg : combinedR P gy gx i ≤ global_max P gy gx :=
    combinedR_le_gmaxAux P gy gx (totalPixels P) i h
  have hg : 0 < global_max P gy gx := one_le_gmaxAux P gy gx (totalPixels P)
  have hnat : combinedR P gy gx i * 255 / global_max P gy gx ≤ 255 := by
    calc combinedR P gy gx i * 255 / global_max P gy gx
        ≤ global_max P gy gx * 255 / global_max P gy gx :=
          Nat.div_le_div_right (Nat.mul_le_mul_right 255 hcg)
      _ = 255 := Nat.mul_div_cancel_left 255 hg
  exact ⟨Int.ofNat_nonneg _, by exact_mod_cast hnat⟩

/-- When the quotient is already in `[0, 255]`, both clamp branches are
identity. -/
theorem normalizedClamped_eq_raw (P : DGParams) (gy gx : Int → Nat) (i : Nat)
    (h : i < totalPixels P) :
    normalizedClamped P gy gx i = normalizedRaw P gy gx i := by
  obtain ⟨h0, h255⟩ := normalizedRaw_bounds P gy gx i h
  rw [normalizedClamped]
  simp only [not_lt.mpr h0, if_false, if_neg (not_lt.mpr h255)]

/-- A pixel outside the interior region keeps a zero combined response. -/
theorem combinedR_of_not_interior (P : DGParams) (gy gx : Int → Nat) (i : Nat)
    (h : ¬ isInterior P i) : combinedR P gy gx i = 0 := by
  rw [combinedR, h_response, v_response, if_neg h, if_neg h]
  simp

/-- A pixel outside the interior region has normalised byte 0. -/
theorem normByte_of_not_interior (P : DGParams) (gy gx : Int → Nat) (i : Nat)
    (h : ¬ isInterior P i) : normByte P gy gx i = 0 := by
  have hraw : normalizedRaw P gy gx i = 0 := by
    rw [normalizedRaw, combinedR_of_not_interior P gy gx i h]
    simp
  rw [normByte, normalizedClamped, hraw]
  simp

/-- The threshold loop, entered at bin `i` with the running sum of the first
`i` bins and with no earlier bin having reached the target, returns the first
bin whose running sum reaches the target — provided some bin does. -/
theorem thrLoop_first (hist : Nat → Nat) (tgt : Int) :
    ∀ rem i, i + rem = 256 →
      (∀ j < i, (cumSum hist (j + 1) : Int) < tgt) →
      tgt ≤ (cumSum hist 256 : Int) →
      tgt ≤ (cumSum hist (thrLoop hist tgt rem i (cumSum hist i) + 1) : Int) ∧
        ∀ j < thrLoop hist tgt rem i (cumSum hist i),
          (cumSum hist (j + 1) : Int) < tgt
  | 0, i, hinv, hmiss, hreach => by
    exfalso
    have hi : i = 256 := by omega
    subst hi
    exact absurd hreach (not_le.mpr (hmiss 255 (by omega)))
  | rem + 1, i, hinv, hmiss, hreach => by
    have hc : cumSum hist i + hist i = cumSum hist (i + 1) :=
      (Finset.sum_range_succ hist i).symm
    rw [thrLoop]
    by_cases hhit : tgt ≤ ((cumSum hist i + hist i : Nat) : Int)
    · rw [if_pos hhit]
      rw [hc] at hhit
      exact ⟨hhit, hmiss⟩
    · rw [if_neg hhit, hc]
      refine thrLoop_first hist tgt rem (i + 1) (by omega) ?_ hreach
      intro j hj
      rcases Nat.lt_succ_iff_lt_or_eq.mp hj with h' | h'
      · exact hmiss j h'
      · rw [h', ← hc]
        exact not_le.mp hhit

/-- The threshold loop never returns more than 255. -/
theorem thrLoop_le_255 (hist : Nat → Nat) (tgt : Int) :
    ∀ rem i cum, i + rem = 256 → thrLoop hist tgt rem i cum ≤ 255
  | 0, _, _, _ => le_refl 255
  | rem + 1, i, cum, hinv => by
    rw [thrLoop]
    by_cases hhit : tgt ≤ ((cum + hist i : Nat) : Int)
    · rw [if_pos hhit]; omega
    · rw [if_neg hhit]
      exact thrLoop_le_255 hist tgt rem (i + 1) (cum + hist i) (by omega)

/-- The threshold loop never returns a bin before its entry bin (capped
at 255). -/
theorem le_thrLoop (hist : Nat → Nat) (tgt : Int) :
    ∀ rem i cum, min i 255 ≤ thrLoop hist tgt rem i cum
  | 0, i, cum => by rw [thrLoop]; exact min_le_right _ _
  | rem + 1, i, cum => by
    rw [thrLoop]
    by_cases hhit : tgt ≤ ((cum + hist i : Nat) : Int)
    · rw [if_pos hhit]; exact min_le_left _ _
    · rw [if_neg hhit]
      exact le_trans (by omega) (le_thrLoop hist tgt rem (i + 1) (cum + hist i))

/-- Raising the target can only move the returned bin later. -/
theorem thrLoop_mono (hist : Nat → Nat) (t1 t2 : Int) (h : t1 ≤ t2) :
    ∀ rem i cum, i + rem = 256 →
      thrLoop hist t1 rem i cum ≤ thrLoop hist t2 rem i cum
  | 0, _, _, _ => le_refl 255
  | rem + 1, i, cum, hinv => by
    rw [thrLoop, thrLoop]
    by_cases h2 : t2 ≤ ((cum + hist i : Nat) : Int)
    · rw [if_pos h2, if_pos (le_trans h h2)]
    · rw [if_neg h2]
      by_cases h1 : t1 ≤ ((cum + hist i : Nat) : Int)
      · rw [if_pos h1]
        exact le_trans (by omega)
          (le_thrLoop hist t2 rem (i + 1) (cum + hist i))
      · rw [if_neg h1]
        exact thrLoop_mono hist t1 t2 h rem (i + 1) (cum + hist i) (by omega)

/-- Truncation toward zero is monotone. -/
theorem ratTrunc_mono {q1 q2 : ℚ} (h : q1 ≤ q2) : ratTrunc q1 ≤ ratTrunc q2 := by
  rw [ratTrunc, ratTrunc]
  by_cases h1 : q1 < 0
  · rw [if_pos h1]
    by_cases h2 : q2 < 0
    · rw [if_pos h2]
      exact neg_le_neg (Int.floor_le_floor (neg_le_neg h))
    · rw [if_neg h2]
      have : (0 : Int) ≤ Int.floor q2 := Int.floor_nonneg.mpr (not_lt.mp h2)
      have : (0 : Int) ≤ Int.floor (-q1) := Int.floor_nonneg.mpr (by linarith)
      omega
  · rw [if_neg h1, if_neg (by intro h2; exact h1 (lt_of_le_of_lt h h2))]
    exact Int.floor_le_floor h

/-- A larger percentile gives a larger (or equal) target count. -/
theorem target_mono (P : DGParams) {p1 p2 : ℚ} (h : p1 ≤ p2) :
    target P p1 ≤ target P p2 := by
  rw [target, target]
  exact ratTrunc_mono (mul_le_mul_of_nonneg_left h (Nat.cast_nonneg _))

/-- On the 3×3 Scenario B configuration with percentile 0.9, the target count
is `⌊9 × 0.9⌋ = 8` (the `float` constant 0.9f also yields 8 there: the exact
product with 0.9f is 8.099999785…, truncating to 8). -/
theorem target_P1_eq : target P1 (9/10) = 8 := by
  have hq : ((totalPixels P1 : ℚ) * (9/10)) = 81/10 := by
    norm_num [totalPixels, P1]
  rw [target, hq, ratTrunc, if_neg (by norm_num)]
  norm_num

/-- Claim C1, Scenario B: on the 3×3 image with margin 1, one angle, one tap,
offset table `[0]`, channel-1 value 100 and channel-2 value 50 at the centre
pixel (index 4) and 0 elsewhere, and percentile 0.9, the kernel produces
accumulated responses 100 and 50 at the centre only, `global_max = 100`,
normalised value 255 at the centre and 0 elsewhere, a histogram with 8 pixels
in bin 0 and 1 pixel in bin 255, `target = 8`, selected threshold 0, and a
final output of 255 at the centre and 0 everywhere else. -/
theorem claim_C1 :
    (h_response P1 gy1 4 = 100 ∧ ∀ i < 9, i ≠ 4 → h_response P1 gy1 i = 0) ∧
    (v_response P1 gx1 4 = 50 ∧ ∀ i < 9, i ≠ 4 → v_response P1 gx1 i = 0) ∧
    global_max P1 gy1 gx1 = 100 ∧
    (normByte P1 gy1 gx1 4 = 255 ∧ ∀ i < 9, i ≠ 4 → normByte P1 gy1 gx1 i = 0) ∧
    histogram P1 gy1 gx1 0 = 8 ∧ histogram P1 gy1 gx1 255 = 1 ∧
    target P1 (9/10) = 8 ∧
    threshold_val (histogram P1 gy1 gx1) (target P1 (9/10)) = 0 ∧
    (output P1 gy1 gx1 (9/10) 4 = 255 ∧
      ∀ i < 9, i ≠ 4 → output P1 gy1 gx1 (9/10) i = 0) := by
  have htgt : target P1 (9/10) = 8 := target_P1_eq
  refine ⟨by decide, by decide, by decide, by decide, by decide, by decide,
    htgt, ?_, ?_, ?_⟩
  · rw [htgt]; decide
  · simp only [output, htgt]; decide
  · simp only [output, htgt]; decide

/-- Claim C2: after the accumulation stage, each channel's accumulator at an
interior pixel holds the maximum over all angle indices of that angle's
kernel-tap sum — never their total — and the value is unchanged under any
permutation of the order in which the angles are folded in. -/
theorem claim_C2 (P : DGParams) (gy gx : Int → Nat) (i : Nat)
    (h : isInterior P i) :
    (h_response P gy i =
      (Finset.range P.num_angles).sup fun a => tapSumH P gy a i) ∧
    (v_response P gx i =
      (Finset.range P.num_angles).sup fun a => tapSumV P gx a i) ∧
    ∀ L : List Nat, L.Perm (List.range P.num_angles) →
      L.foldl (fun acc a => max acc (tapSumH P gy a i)) 0 = h_response P gy i ∧
      L.foldl (fun acc a => max acc (tapSumV P gx a i)) 0 = v_response P gx i := by
  have hh : h_response P gy i = accumH P gy i P.num_angles := if_pos h
  have hv : v_response P gx i = accumV P gx i P.num_angles := if_pos h
  refine ⟨by rw [hh, accumH_eq_sup], by rw [hv, accumV_eq_sup], ?_⟩
  intro L hL
  constructor
  · rw [foldl_max_perm _ L _ hL, hh, accumH_eq_foldl]
  · rw [foldl_max_perm _ L _ hL, hv, accumV_eq_foldl]

/-- Concrete instantiation of claim C2 at the interior pixel of Scenario B. -/
theorem claim_C2_witness :
    isInterior P1 4 ∧
      h_response P1 gy1 4 =
        (Finset.range P1.num_angles).sup fun a => tapSumH P1 gy1 a 4 :=
  ⟨by decide, (claim_C2 P1 gy1 gx1 4 (by decide)).1⟩

/-- Claim C3: whenever the cumulative histogram reaches the target at all,
the selected threshold is the first bin, in increasing bin order, whose
running count sum reaches or exceeds `target` — the inverse-CDF lookup. -/
theorem claim_C3 (P : DGParams) (gy gx : Int → Nat) (p : ℚ)
    (hreach : target P p ≤ (cumSum (histogram P gy gx) 256 : Int)) :
    target P p ≤ (cumSum (histogram P gy gx)
        (threshold_val (histogram P gy gx) (target P p) + 1) : Int) ∧
      ∀ j < threshold_val (histogram P gy gx) (target P p),
        (cumSum (histogram P gy gx) (j + 1) : Int) < target P p := by
  have h0 : cumSum (histogram P gy gx) 0 = 0 := by simp [cumSum]
  have hmain := thrLoop_first (histogram P gy gx) (target P p) 256 0 (by omega)
    (fun j hj => absurd hj (Nat.not_lt_zero j)) hreach
  rw [h0] at hmain
  simp only [threshold_val]
  exact hmain

set_option maxRecDepth 8000 in
/-- Concrete instantiation of claim C3 on Scenario B. -/
theorem claim_C3_witness :
    target P1 (9/10) ≤ (cumSum (histogram P1 gy1 gx1) 256 : Int) ∧
      target P1 (9/10) ≤ (cumSum (histogram P1 gy1 gx1)
        (threshold_val (histogram P1 gy1 gx1) (target P1 (9/10)) + 1) : Int) := by
  have hreach : target P1 (9/10) ≤ (cumSum (histogram P1 gy1 gx1) 256 : Int) := by
    rw [target_P1_eq]
    decide
  exact ⟨hreach, (claim_C3 P1 gy1 gx1 (9/10) hreach).1⟩

/-- Claim C5: when either working-storage allocation fails, the kernel
returns the all-zero output image. -/
theorem claim_C5 (hOk vOk : Bool) (P : DGParams) (gy gx : Int → Nat) (p : ℚ)
    (i : Nat) (h : hOk = false ∨ vOk = false) :
    dgRun hOk vOk P gy gx p i = 0 := by
  rcases h with h | h <;> rw [dgRun, h] <;> simp

/-- Concrete instantiation of claim C5 with a failed first allocation. -/
theorem claim_C5_witness :
    ((false : Bool) = false ∨ (true : Bool) = false) ∧
      dgRun false true P1 gy1 gx1 (9/10) 0 = 0 :=
  ⟨Or.inl rfl, claim_C5 false true P1 gy1 gx1 (9/10) 0 (Or.inl rfl)⟩

/-- Claim C6: the binarizer writes 255 exactly when the normalised byte
strictly exceeds the threshold; a pixel equal to the threshold becomes 0, and
every output byte is 0 or 255. -/
theorem claim_C6 (P : DGParams) (gy gx : Int → Nat) (p : ℚ) (i : Nat) :
    (output P gy gx p i = 0 ∨ output P gy gx p i = 255) ∧
    (normByte P gy gx i = threshold_val (histogram P gy gx) (target P p) →
      output P gy gx p i = 0) ∧
    (output P gy gx p i = 255 ↔
      threshold_val (histogram P gy gx) (target P p) < normByte P gy gx i) := by
  rw [output]
  by_cases hc : threshold_val (histogram P gy gx) (target P p) <
      normByte P gy gx i
  · rw [if_pos hc]
    exact ⟨Or.inr rfl, fun he => absurd (he ▸ hc) (lt_irrefl _),
      fun _ => hc, fun _ => rfl⟩
  · rw [if_neg hc]
    exact ⟨Or.inl rfl, fun _ => rfl,
      fun h0 => absurd h0 (by omega), fun h0 => absurd h0 hc⟩

/-- Concrete instantiation of claim C6 at pixel 0 of Scenario B. -/
theorem claim_C6_witness :
    output P1 gy1 gx1 (9/10) 0 = 0 ∨ output P1 gy1 gx1 (9/10) 0 = 255 :=
  (claim_C6 P1 gy1 gx1 (9/10) 0).1

/-- Claim C7: every pixel outside the interior region is 0 in the final
output, for any parameters, inputs and percentile. -/
theorem claim_C7 (P : DGParams) (gy gx : Int → Nat) (p : ℚ) (i : Nat)
    (h : ¬ isInterior P i) : output P gy gx p i = 0 := by
  rw [output, normByte_of_not_interior P gy gx i h]
  simp

/-- Concrete instantiation of claim C7 at the top-left margin pixel of
Scenario B. -/
theorem claim_C7_witness :
    ¬ isInterior P1 0 ∧ output P1 gy1 gx1 (9/10) 0 = 0 :=
  ⟨by decide, claim_C7 P1 gy1 gx1 (9/10) 0 (by decide)⟩

/-- Claim C8: the global maximum of the combining pass is at least 1 for
every input, so the normalisation divisor is never zero. -/
theorem claim_C8 (P : DGParams) (gy gx : Int → Nat) :
    1 ≤ global_max P gy gx ∧ (global_max P gy gx : Int) ≠ 0 := by
  have h1 : 1 ≤ global_max P gy gx := one_le_gmaxAux P gy gx (totalPixels P)
  have h2 : global_max P gy gx ≠ 0 := by omega
  exact ⟨h1, by exact_mod_cast h2⟩

/-- Claim C9: for a fixed histogram, a larger percentile selects a threshold
at least as large, hence at most as many 255-valued output pixels. -/
theorem claim_C9 (P : DGParams) (gy gx : Int → Nat) (p1 p2 : ℚ)
    (hp : p1 ≤ p2) :
    threshold_val (histogram P gy gx) (target P p1) ≤
      threshold_val (histogram P gy gx) (target P p2) ∧
    ((Finset.range (totalPixels P)).filter
        fun i => output P gy gx p2 i = 255).card ≤
      ((Finset.range (totalPixels P)).filter
        fun i => output P gy gx p1 i = 255).card := by
  have hthr : threshold_val (histogram P gy gx) (target P p1) ≤
      threshold_val (histogram P gy gx) (target P p2) := by
    rw [threshold_val, threshold_val]
    exact thrLoop_mono _ _ _ (target_mono P hp) 256 0 0 (by omega)
  refine ⟨hthr, Finset.card_le_card ?_⟩
  intro x hx
  rw [Finset.mem_filter] at hx ⊢
  refine ⟨hx.1, ?_⟩
  have h2 := hx.2
  rw [output] at h2 ⊢
  by_cases hc2 : threshold_val (histogram P gy gx) (target P p2) <
      normByte P gy gx x
  · rw [if_pos (lt_of_le_of_lt hthr hc2)]
  · rw [if_neg hc2] at h2
    exact absurd h2 (by omega)

/-- Concrete instantiation of claim C9 on Scenario B with percentiles 1/2
and 9/10. -/
theorem claim_C9_witness :
    ((1/2 : ℚ) ≤ 9/10) ∧
      threshold_val (histogram P1 gy1 gx1) (target P1 (1/2)) ≤
        threshold_val (histogram P1 gy1 gx1) (target P1 (9/10)) :=
  ⟨by norm_num, (claim_C9 P1 gy1 gx1 (1/2) (9/10) (by norm_num)).1⟩

/-- Claim C10: for every pixel of the image the normalisation quotient
already lies in `[0, 255]`, so both clamp branches are the identity and the
byte written is the raw quotient. -/
theorem claim_C10 (P : DGParams) (gy gx : Int → Nat) (i : Nat)
    (h : i < totalPixels P) :
    0 ≤ normalizedRaw P gy gx i ∧ normalizedRaw P gy gx i ≤ 255 ∧
      normalizedClamped P gy gx i = normalizedRaw P gy gx i ∧
      normByte P gy gx i = (normalizedRaw P gy gx i).toNat := by
  obtain ⟨h0, h255⟩ := normalizedRaw_bounds P gy gx i h
  have heq := normalizedClamped_eq_raw P gy gx i h
  exact ⟨h0, h255, heq, by rw [normByte, heq]⟩

/-- Concrete instantiation of claim C10 at pixel 0 of Scenario B. -/
theorem claim_C10_witness :
    0 < totalPixels P1 ∧ 0 ≤ normalizedRaw P1 gy1 gx1 0 ∧
      normalizedRaw P1 gy1 gx1 0 ≤ 255 ∧
      normalizedClamped P1 gy1 gx1 0 = normalizedRaw P1 gy1 gx1 0 ∧
      normByte P1 gy1 gx1 0 = (normalizedRaw P1 gy1 gx1 0).toNat :=
  ⟨by decide, claim_C10 P1 gy1 gx1 0 (by decide)⟩

end DocShot
